import Mathlib

/-!
Verification of the doccheck documentation-style linter.

The Go program is shallowly embedded here.  Go strings are modelled as
lists of their UTF-8 bytes (`GoStr`), so byte indexing, byte lengths and
byte-level regexp offsets in the source translate directly.  The three
regular expressions built in `initRegexps` are compiled by hand into
decidable matching functions (all three patterns are pure ASCII, hence a
byte-position match coincides with a rune-position match).  The checkers
return lists of findings instead of printing to stderr; the issue counter
of the linter is the fold that increments once per emitted report.
-/

namespace Doccheck

/-- Go strings modelled as their UTF-8 byte sequences. -/
abbrev GoStr := List Nat

/-- Byte sequence of an ASCII string literal (each character below 128 is
encoded as the single byte equal to its code point).  Used only on ASCII
literals; non-ASCII byte sequences are written out explicitly. -/
def ascii (s : String) : GoStr := s.data.map Char.toNat

/-- Type expression of a result field: a plain identifier
(ast.Ident) or any other type expression. -/
inductive TypeExpr where
  | ident (name : GoStr)
  | other
deriving DecidableEq

/-- One entry of a function result list (ast.Field): bound names and a type. -/
structure Field where
  names : List GoStr
  type : TypeExpr
deriving DecidableEq

/-- A function declaration (ast.FuncDecl): name, optional result list
(`none` models a nil Results field), and optional doc comment, the latter
given as the list of the Text of the comments of the CommentGroup. -/
structure FuncDecl where
  name : GoStr
  results : Option (List Field)
  doc : Option (List GoStr)
deriving DecidableEq

/-- A top-level declaration: a function declaration or anything else
(the linter only inspects function declarations). -/
inductive Decl where
  | func (fd : FuncDecl)
  | other
deriving DecidableEq

/-- A file (ast.File): optional package-level doc comment and the
top-level declarations. -/
structure File where
  doc : Option (List GoStr)
  decls : List Decl
deriving DecidableEq

/-- A package (ast.Package): name and the files, keyed by file name. -/
structure Package where
  name : GoStr
  files : List (GoStr × File)
deriving DecidableEq

/-- Source isBooleanFunc: the result list exists, has exactly one field,
that field binds exactly one name, and its type is the identifier bool. -/
def isBooleanFunc (decl : FuncDecl) : Bool :=
  match decl.results with
  | none => false
  | some rs =>
    match rs with
    | [res] =>
      (res.names.length == 1) &&
        (match res.type with
         | TypeExpr.ident n => n == ascii "bool"
         | TypeExpr.other => false)
    | _ => false

/-- The eight alternatives of the predicate-name regexp built in
initRegexps: the four literals Has, Is, Contains, Can followed by their
lowercased forms (the loop appends strings.ToLower of each). -/
def predPrefixes : List GoStr :=
  [ascii "Has", ascii "Is", ascii "Contains", ascii "Can",
   ascii "has", ascii "is", ascii "contains", ascii "can"]

/-- Byte in the regexp character class of uppercase letters and digits. -/
def isUpperDigitByte (b : Nat) : Bool :=
  (65 ≤ b && b ≤ 90) || (48 ≤ b && b ≤ 57)

/-- Byte matched by the regexp word class: digit, letter or underscore. -/
def isWordByte (b : Nat) : Bool :=
  (48 ≤ b && b ≤ 57) || (65 ≤ b && b ≤ 90) || (97 ≤ b && b ≤ 122) || (b == 95)

/-- Match of the predicate-name regexp starting exactly at the head of s:
one of the eight alternatives, then an uppercase letter or digit (the
trailing word-class star matches the empty string, so it never constrains
existence of a match). -/
def predPrefixAt (s : GoStr) : Bool :=
  predPrefixes.any fun p =>
    p.isPrefixOf s &&
      (match s.drop p.length with
       | [] => false
       | b :: _ => isUpperDigitByte b)

/-- Go MatchString is unanchored: the predicate-name regexp matches a
string iff it matches starting at some byte position. -/
def predPrefixMatch : GoStr → Bool
  | [] => false
  | s@(_ :: rest) => predPrefixAt s || predPrefixMatch rest

/-- The twelve alternatives of the predicate-antipattern regexp, each
surrounded by single spaces as built in initRegexps. -/
def antipatternPhrases : List GoStr :=
  [ascii " returns true if ", ascii " returns false if ",
   ascii " returns true iff ", ascii " returns false iff ",
   ascii " returns true for ", ascii " returns false for ",
   ascii " returns true when ", ascii " returns false when ",
   ascii " tells whether ", ascii " tests whether ",
   ascii " determines whether ", ascii " indicates whether "]

/-- Leftmost byte index at which one of the patterns occurs in s, the
first component of Go FindStringIndex; none when there is no match. -/
def findIdx (pats : List GoStr) : GoStr → Option Nat
  | [] => if pats.any fun p => p.isPrefixOf ([] : GoStr) then some 0 else none
  | s@(_ :: rest) =>
    if pats.any fun p => p.isPrefixOf s then some 0
    else (findIdx pats rest).map fun n => n + 1

/-- State of the directive regexp after two slashes and at least one word
byte: either a colon-space follows now, or another word byte is consumed. -/
def directiveAfterWord : GoStr → Bool
  | [] => false
  | b :: rest => (ascii ": ").isPrefixOf (b :: rest) || (isWordByte b && directiveAfterWord rest)

/-- State of the directive regexp right after the two slashes: at least
one word byte, then colon-space (the trailing dot-star matches the empty
string, so it never constrains existence of a match). -/
def directiveTail : GoStr → Bool
  | [] => false
  | b :: rest => isWordByte b && directiveAfterWord rest

/-- Go MatchString of the directive regexp is unanchored: two slashes,
one or more word bytes, then colon-space, occurring anywhere in s. -/
def directiveMatch : GoStr → Bool
  | [] => false
  | s@(_ :: rest) => ((ascii "//").isPrefixOf s && directiveTail (s.drop 2)) || directiveMatch rest

/-- The findings the linter can emit, one constructor per warning message
of the source (manyDocComments carries the count formatted into it). -/
inductive Finding where
  | badPredicateComment
  | noMultiline
  | endsWithPunct
  | spacing
  | noDocComment
  | manyDocComments (n : Nat)
  | longDocComment
deriving DecidableEq

/-- The anchor a warning is printed with: the linted path (warnPkg with an
empty file name), a file name (warnPkg with a file name), or the position
of the current function (warnFunc). -/
inductive Anchor where
  | pkgPath
  | file (name : GoStr)
  | fnDecl (name : GoStr)
deriving DecidableEq

/-- One emitted warning: its anchor and its finding. -/
structure Report where
  anchor : Anchor
  finding : Finding
deriving DecidableEq

/-- Source strings.Contains sub of s: sub occurs at some byte position. -/
def goContains (sub : GoStr) : GoStr → Bool
  | [] => sub.isEmpty
  | s@(_ :: rest) => sub.isPrefixOf s || goContains sub rest

/-- Source checkSpacing: per comment of the group, block comments and
directive-matching comments are skipped, every other comment must begin
with slash-slash-space or slash-slash-tab. -/
def checkSpacing : List GoStr → List Finding
  | [] => []
  | c :: rest =>
    (if (ascii "/*").isPrefixOf c then []
     else if directiveMatch c then []
     else if (ascii "// ").isPrefixOf c || (ascii "//\t").isPrefixOf c then []
     else [Finding.spacing]) ++ checkSpacing rest

/-- Go unicode.IsPunct restricted to the values the source can pass it:
rune(b) for a byte b, i.e. the Latin-1 range.  The bytes listed are
exactly the Latin-1 code points of Unicode category P, as tabulated in
the Go unicode package. -/
def isPunctByte (b : Nat) : Bool :=
  ([33, 34, 35, 37, 38, 39, 40, 41, 42, 44, 45, 46, 47, 58, 59, 63, 64,
    91, 92, 93, 95, 123, 125, 161, 167, 171, 182, 183, 187, 191] : List Nat).contains b

/-- Source checkEndsWithPunct: only a group of exactly one comment whose
text starts with two slashes is checked; the warning fires when the LAST
BYTE of that text, read as a rune, is not punctuation. -/
def checkEndsWithPunct (doc : List GoStr) : List Finding :=
  match doc with
  | [line] =>
    if (ascii "//").isPrefixOf line then
      match line.getLast? with
      | some b => if isPunctByte b then [] else [Finding.endsWithPunct]
      | none => []
    else []
  | _ => []

/-- Source checkNoMultiline: scan the comments in order and warn once at
the first block comment. -/
def checkNoMultiline : List GoStr → List Finding
  | [] => []
  | c :: rest =>
    if (ascii "/*").isPrefixOf c then [Finding.noMultiline] else checkNoMultiline rest

/-- First half of source checkBoolFuncStyle: FindStringIndex of the
antipattern regexp on the first comment line; when it matches, warn iff
the match start minus the byte length of the function name lies strictly
above 1 and at most 4 (Go int subtraction, hence computed in Int). -/
def predAntipatternFindings (name line : GoStr) : List Finding :=
  match findIdx antipatternPhrases line with
  | none => []
  | some loc =>
    if 1 < (loc : Int) - (name.length : Int) ∧ (loc : Int) - (name.length : Int) ≤ 4 then
      [Finding.badPredicateComment]
    else []

/-- Second half of source checkBoolFuncStyle: when the function name
matches the predicate-name regexp, warn iff the first comment line does
not contain the name followed by the canonical reporting phrase. -/
def predPrefixFindings (name line : GoStr) : List Finding :=
  if predPrefixMatch name && !(goContains (name ++ ascii " reports whether ") line) then
    [Finding.badPredicateComment]
  else []

/-- Source checkBoolFuncStyle: nothing unless the function is a boolean
function; otherwise both halves run in order on the first comment line
(the trailing return of the source ends the function either way). -/
def checkBoolFuncStyle (fn : FuncDecl) (doc : List GoStr) : List Finding :=
  if !(isBooleanFunc fn) then []
  else
    match doc with
    | [] => []
    | line :: _ => predAntipatternFindings fn.name line ++ predPrefixFindings fn.name line

/-- The four per-function checks in the order CheckFile invokes them. -/
def checkFuncDoc (fn : FuncDecl) (doc : List GoStr) : List Finding :=
  checkBoolFuncStyle fn doc ++ checkNoMultiline doc ++ checkEndsWithPunct doc ++ checkSpacing doc

/-- Source CheckFile: every documented function declaration becomes the
current function and its doc comment runs through the four checks; the
warnings are anchored at the current function. -/
def CheckFile (f : File) : List Report :=
  (f.decls.map fun d =>
    match d with
    | Decl.func fn =>
      match fn.doc with
      | some doc => (checkFuncDoc fn doc).map fun g => Report.mk (Anchor.fnDecl fn.name) g
      | none => []
    | Decl.other => []).flatten

/-- The files of a package that carry a package-level doc comment, with
their doc comments, in file order (the count of source CheckPackage is
the length of this list, and when it is one, its element is the doc and
docFilename the source retains). -/
def docFiles (pkg : Package) : List (GoStr × List GoStr) :=
  pkg.files.filterMap fun fl =>
    match fl.2.doc with
    | some d => some (fl.1, d)
    | none => none

/-- Line total of source CheckPackage: per comment of the group, the
number of newline bytes in its text plus one, summed. -/
def docCommentLines (doc : List GoStr) : Nat :=
  (doc.map fun c => c.count 10 + 1).sum

/-- Source CheckPackage: zero doc comments warns once at the path; more
than one warns once at the path with the count; exactly one, in a package
not named main, warns at the doc-carrying file when the line total
exceeds 100 and that file is not doc.go. -/
def CheckPackage (pkg : Package) : List Report :=
  match docFiles pkg with
  | [] => [Report.mk Anchor.pkgPath Finding.noDocComment]
  | [(fn, doc)] =>
    if pkg.name ≠ ascii "main" then
      if 100 < docCommentLines doc ∧ fn ≠ ascii "doc.go" then
        [Report.mk (Anchor.file fn) Finding.longDocComment]
      else []
    else []
  | l => [Report.mk Anchor.pkgPath (Finding.manyDocComments l.length)]

/-- One package in source main: CheckPackage, then CheckFile on each file. -/
def lintPackage (pkg : Package) : List Report :=
  CheckPackage pkg ++ (pkg.files.map fun fl => CheckFile fl.2).flatten

/-- The whole run of source main after a successful parse. -/
def lintAll (pkgs : List Package) : List Report :=
  (pkgs.map lintPackage).flatten

/-- The issue counter: warnPkg and warnFunc each increment it once per
emitted report, starting from zero. -/
def issuesOf (reports : List Report) : Nat :=
  reports.foldl (fun n _ => n + 1) 0

/-- Source ExitCode: zero iff the issue counter is zero, else one. -/
def ExitCode (issues : Nat) : Nat :=
  if issues == 0 then 0 else 1

/-- Modelled from the spec wording of claim C1: the name BEGINS WITH one
of the predicate prefixes, followed by an uppercase letter or digit and
then word characters.  Compared against the unanchored predPrefixMatch
the source actually uses. -/
def predNameBeginsWith (name : GoStr) : Bool :=
  predPrefixes.any fun p =>
    p.isPrefixOf name &&
      (match name.drop p.length with
       | [] => false
       | b :: rest => isUpperDigitByte b && rest.all isWordByte)

/-- Modelled from the spec wording of claim C7: the whole line-comment
has the directive shape, two slashes immediately followed by an
identifier, colon, space, rest.  Compared against the unanchored
directiveMatch the source actually uses. -/
def directiveShaped (c : GoStr) : Bool :=
  (ascii "//").isPrefixOf c && directiveTail (c.drop 2)

/-- Modelled from the spec wording of claim C6 (which speaks of the last
CHARACTER of the line): decode a UTF-8 byte sequence into code points,
assuming well-formed input. -/
def utf8Decode : List Nat → List Nat
  | [] => []
  | b :: rest =>
    if b < 128 then b :: utf8Decode rest
    else if b < 224 then
      match rest with
      | b2 :: rest2 => ((b - 192) * 64 + (b2 - 128)) :: utf8Decode rest2
      | [] => [b]
    else if b < 240 then
      match rest with
      | b2 :: b3 :: rest3 =>
        (((b - 224) * 64 + (b2 - 128)) * 64 + (b3 - 128)) :: utf8Decode rest3
      | _ => [b]
    else
      match rest with
      | b2 :: b3 :: b4 :: rest4 =>
        ((((b - 240) * 64 + (b2 - 128)) * 64 + (b3 - 128)) * 64 + (b4 - 128)) :: utf8Decode rest4
      | _ => [b]

/-- Modelled from the spec wording of claim C6: Unicode punctuation
(category P) for the code points appearing in this development, namely
the Latin-1 range (per the Go unicode package tables) together with
U+2026 HORIZONTAL ELLIPSIS, which is category Po. -/
def isPunctCp (c : Nat) : Bool :=
  isPunctByte c || c == 8230

/-- A line of a doc comment violating the spacing rule: not a block
comment, not matching the directive regexp, and not starting with
slash-slash-space or slash-slash-tab. -/
def spacingViolation (c : GoStr) : Bool :=
  !((ascii "/*").isPrefixOf c) && !(directiveMatch c) &&
    !((ascii "// ").isPrefixOf c) && !((ascii "//\t").isPrefixOf c)

/-- A match of one of the patterns at byte position i of s. -/
def matchAt (pats : List GoStr) (s : GoStr) (i : Nat) : Prop :=
  ∃ p u v, p ∈ pats ∧ s = u ++ p ++ v ∧ u.length = i

/-- Concrete boolean function whose name contains a predicate-prefix
match away from the start: used against claim C1. -/
def fnFooIsBar : FuncDecl :=
  { name := ascii "FooIsBar"
    results := some [{ names := [ascii "ok"], type := TypeExpr.ident (ascii "bool") }]
    doc := some [ascii "// does things."] }

/-- Concrete well-documented predicate function: used for claim C1. -/
def fnIsGood : FuncDecl :=
  { name := ascii "IsGood"
    results := some [{ names := [ascii "ok"], type := TypeExpr.ident (ascii "bool") }]
    doc := some [ascii "// IsGood reports whether it is good."] }

/-- Doc line of fnIsGood. -/
def lineIsGood : GoStr := ascii "// IsGood reports whether it is good."

/-- Concrete predicate function whose doc line triggers both halves of
checkBoolFuncStyle at once: used against claim C4. -/
def fnIsX : FuncDecl :=
  { name := ascii "IsX"
    results := some [{ names := [ascii "ok"], type := TypeExpr.ident (ascii "bool") }]
    doc := some [ascii "// IsX returns true if x."] }

/-- Doc line of fnIsX. -/
def lineIsX : GoStr := ascii "// IsX returns true if x."

/-- Concrete predicate function whose doc line contains an antipattern
phrase in the reporting window: used for claim C3. -/
def fnHasFoo : FuncDecl :=
  { name := ascii "HasFoo"
    results := some [{ names := [ascii "ok"], type := TypeExpr.ident (ascii "bool") }]
    doc := some [ascii "// HasFoo returns true if foo."] }

/-- Doc line of fnHasFoo. -/
def lineHasFoo : GoStr := ascii "// HasFoo returns true if foo."

/-- Doc line ending in the three-byte UTF-8 encoding of U+2026
HORIZONTAL ELLIPSIS: used against claim C6. -/
def ellipsisLine : GoStr := ascii "// x" ++ [226, 128, 166]

/-- Line comment that is not directive-shaped from its start but contains
an unanchored directive match: used against claim C7. -/
def c7line : GoStr := ascii "//x//y: z"

/-- Package with no package-level doc comment: used for claim C9. -/
def pkgNoDoc : Package :=
  { name := ascii "a", files := [(ascii "a.go", { doc := none, decls := [] })] }

/-- Package with two package-level doc comments: used for claim C9. -/
def pkgTwoDocs : Package :=
  { name := ascii "b"
    files := [(ascii "a.go", { doc := some [ascii "// A."], decls := [] }),
              (ascii "b.go", { doc := some [ascii "// B."], decls := [] })] }

/-- Package whose single doc comment spans 101 physical lines and does
not live in doc.go: used for claim C5. -/
def pkgLong : Package :=
  { name := ascii "p"
    files := [(ascii "a.go", { doc := some [List.replicate 100 10], decls := [] })] }

/-- Package with no doc comment, exercising a nonzero issue count: used
for claim C10. -/
def pkgIssue : Package :=
  { name := ascii "q", files := [(ascii "q.go", { doc := none, decls := [] })] }

theorem isPrefixOf_eq (p s : GoStr) : p.isPrefixOf s = true ↔ ∃ t, s = p ++ t := by
  rw [List.isPrefixOf_iff_prefix]
  exact ⟨fun ⟨t, ht⟩ => ⟨t, ht.symm⟩, fun ⟨t, ht⟩ => ⟨t, ht.symm⟩⟩

theorem goContains_iff (sub s : GoStr) :
    goContains sub s = true ↔ ∃ u v, s = u ++ sub ++ v := by
  induction s with
  | nil =>
    rw [goContains]
    constructor
    · intro h
      have hsub : sub = [] := List.isEmpty_iff.mp h
      exact ⟨[], [], by simp [hsub]⟩
    · rintro ⟨u, v, hs⟩
      have h1 : u = [] ∧ sub = [] ∧ v = [] := by
        have := hs.symm
        simp only [List.append_assoc, List.append_eq_nil] at this
        exact ⟨this.1, this.2.1, this.2.2⟩
      rw [List.isEmpty_iff]
      exact h1.2.1
  | cons b rest ih =>
    rw [goContains, Bool.or_eq_true, isPrefixOf_eq, ih]
    constructor
    · rintro (⟨t, ht⟩ | ⟨u, v, hs⟩)
      · exact ⟨[], t, by simpa using ht⟩
      · exact ⟨b :: u, v, by simp [hs]⟩
    · rintro ⟨u, v, hs⟩
      cases u with
      | nil => exact Or.inl ⟨v, by simpa using hs⟩
      | cons c u' =>
        rw [List.cons_append, List.cons_append] at hs
        have h2 := (List.cons.injEq b rest c (u' ++ sub ++ v)).mp (by simpa using hs)
        exact Or.inr ⟨u', v, h2.2⟩

theorem predPrefixAt_iff (s : GoStr) :
    predPrefixAt s = true ↔
      ∃ p b v, p ∈ predPrefixes ∧ isUpperDigitByte b = true ∧ s = p ++ b :: v := by
  unfold predPrefixAt
  rw [List.any_eq_true]
  constructor
  · rintro ⟨p, hp, hcond⟩
    rw [Bool.and_eq_true] at hcond
    obtain ⟨hpre, hmatch⟩ := hcond
    obtain ⟨t, ht⟩ := (isPrefixOf_eq p s).mp hpre
    have hdrop : s.drop p.length = t := by rw [ht]; exact List.drop_left p t
    cases t with
    | nil => rw [hdrop] at hmatch; simp at hmatch
    | cons b v =>
      rw [hdrop] at hmatch
      exact ⟨p, b, v, hp, hmatch, ht⟩
  · rintro ⟨p, b, v, hp, hb, hs⟩
    refine ⟨p, hp, ?_⟩
    rw [Bool.and_eq_true]
    refine ⟨(isPrefixOf_eq p s).mpr ⟨b :: v, hs⟩, ?_⟩
    have hdrop : s.drop p.length = b :: v := by rw [hs]; exact List.drop_left p (b :: v)
    rw [hdrop]
    exact hb

theorem predPrefixMatch_iff (s : GoStr) :
    predPrefixMatch s = true ↔
      ∃ u p b v, p ∈ predPrefixes ∧ isUpperDigitByte b = true ∧ s = u ++ p ++ b :: v := by
  induction s with
  | nil =>
    rw [predPrefixMatch]
    simp only [Bool.false_eq_true, false_iff]
    rintro ⟨u, p, b, v, _, _, hs⟩
    have := hs.symm
    simp only [List.append_assoc, List.append_eq_nil] at this
    exact absurd this.2.2 (by simp)
  | cons c rest ih =>
    rw [predPrefixMatch, Bool.or_eq_true, predPrefixAt_iff, ih]
    constructor
    · rintro (⟨p, b, v, hp, hb, hs⟩ | ⟨u, p, b, v, hp, hb, hs⟩)
      · exact ⟨[], p, b, v, hp, hb, by simpa using hs⟩
      · exact ⟨c :: u, p, b, v, hp, hb, by simp [hs]⟩
    · rintro ⟨u, p, b, v, hp, hb, hs⟩
      cases u with
      | nil => exact Or.inl ⟨p, b, v, hp, hb, by simpa using hs⟩
      | cons c' u' =>
        rw [List.cons_append] at hs
        have h2 := (List.cons.injEq c rest c' (u' ++ (p ++ b :: v))).mp (by simpa using hs)
        exact Or.inr ⟨u', p, b, v, hp, hb, by simpa using h2.2⟩

theorem matchAt_zero (pats : List GoStr) (s : GoStr) :
    matchAt pats s 0 ↔ (pats.any fun p => p.isPrefixOf s) = true := by
  rw [List.any_eq_true]
  constructor
  · rintro ⟨p, u, v, hp, hs, hu⟩
    have hunil : u = [] := List.length_eq_zero.mp hu
    subst hunil
    exact ⟨p, hp, (isPrefixOf_eq p s).mpr ⟨v, by simpa using hs⟩⟩
  · rintro ⟨p, hp, hpre⟩
    obtain ⟨t, ht⟩ := (isPrefixOf_eq p s).mp hpre
    exact ⟨p, [], t, hp, by simpa using ht, rfl⟩

theorem matchAt_cons (pats : List GoStr) (b : Nat) (s : GoStr) (i : Nat) :
    matchAt pats (b :: s) (i + 1) ↔ matchAt pats s i := by
  constructor
  · rintro ⟨p, u, v, hp, hs, hu⟩
    cases u with
    | nil => simp at hu
    | cons c u' =>
      rw [List.cons_append] at hs
      have h2 := (List.cons.injEq b s c (u' ++ (p ++ v))).mp (by simpa using hs)
      refine ⟨p, u', v, hp, by simpa using h2.2, ?_⟩
      simpa using hu
  · rintro ⟨p, u, v, hp, hs, hu⟩
    exact ⟨p, b :: u, v, hp, by simp [hs], by simp [hu]⟩

theorem matchAt_nil (pats : List GoStr) (i : Nat) :
    matchAt pats [] i ↔ i = 0 ∧ [] ∈ pats := by
  constructor
  · rintro ⟨p, u, v, hp, hs, hu⟩
    have h1 : u = [] ∧ p = [] ∧ v = [] := by
      have := hs.symm
      simp only [List.append_assoc, List.append_eq_nil] at this
      exact ⟨this.1, this.2.1, this.2.2⟩
    refine ⟨?_, ?_⟩
    · rw [← hu, h1.1]; rfl
    · rw [← h1.2.1]; exact hp
  · rintro ⟨hi, hp⟩
    subst hi
    exact ⟨[], [], [], hp, rfl, rfl⟩

theorem findIdx_eq_some (pats : List GoStr) (s : GoStr) (i : Nat) :
    findIdx pats s = some i ↔ matchAt pats s i ∧ ∀ j, j < i → ¬ matchAt pats s j := by
  induction s generalizing i with
  | nil =>
    rw [findIdx]
    by_cases h : (pats.any fun p => p.isPrefixOf ([] : GoStr)) = true
    · rw [if_pos h]
      constructor
      · intro hsome
        have hi : i = 0 := by
          have := Option.some.injEq 0 i
          exact (Option.some_inj.mp hsome).symm ▸ rfl
        subst hi
        exact ⟨(matchAt_zero pats []).mpr h, fun j hj => absurd hj (Nat.not_lt_zero j)⟩
      · rintro ⟨hm, _⟩
        have hi : i = 0 := ((matchAt_nil pats i).mp hm).1
        subst hi
        rfl
    · rw [if_neg h]
      constructor
      · intro hsome; exact absurd hsome (by simp)
      · rintro ⟨hm, _⟩
        obtain ⟨_, hmem⟩ := (matchAt_nil pats i).mp hm
        exact absurd (List.any_eq_true.mpr ⟨[], hmem, rfl⟩) h
  | cons b rest ih =>
    rw [findIdx]
    by_cases h : (pats.any fun p => p.isPrefixOf (b :: rest)) = true
    · rw [if_pos h]
      constructor
      · intro hsome
        have hi : i = 0 := (Option.some_inj.mp hsome).symm
        subst hi
        exact ⟨(matchAt_zero pats (b :: rest)).mpr h, fun j hj => absurd hj (Nat.not_lt_zero j)⟩
      · rintro ⟨hm, hmin⟩
        cases i with
        | zero => rfl
        | succ i' => exact absurd ((matchAt_zero pats (b :: rest)).mpr h) (hmin 0 (Nat.succ_pos i'))
    · rw [if_neg h]
      rw [Option.map_eq_some']
      constructor
      · rintro ⟨i', hfind, hi⟩
        have hi2 : i = i' + 1 := hi.symm
        subst hi2
        obtain ⟨hm, hmin⟩ := (ih i').mp hfind
        refine ⟨(matchAt_cons pats b rest i').mpr hm, ?_⟩
        intro j hj
        cases j with
        | zero => rw [matchAt_zero]; exact fun hh => h hh
        | succ j' =>
          rw [matchAt_cons]
          exact hmin j' (by omega)
      · rintro ⟨hm, hmin⟩
        cases i with
        | zero => exact absurd ((matchAt_zero pats (b :: rest)).mp hm) h
        | succ i' =>
          refine ⟨i', ?_, rfl⟩
          refine (ih i').mpr ⟨(matchAt_cons pats b rest i').mp hm, ?_⟩
          intro j hj hmj
          exact hmin (j + 1) (by omega) ((matchAt_cons pats b rest j).mpr hmj)

theorem findIdx_eq_none (pats : List GoStr) (s : GoStr) :
    findIdx pats s = none ↔ ∀ i, ¬ matchAt pats s i := by
  induction s with
  | nil =>
    rw [findIdx]
    by_cases h : (pats.any fun p => p.isPrefixOf ([] : GoStr)) = true
    · rw [if_pos h]
      simp only [reduceCtorEq, false_iff, not_forall, not_not]
      exact ⟨0, (matchAt_zero pats []).mpr h⟩
    · rw [if_neg h]
      simp only [true_iff]
      intro i hm
      obtain ⟨_, hmem⟩ := (matchAt_nil pats i).mp hm
      exact h (List.any_eq_true.mpr ⟨[], hmem, rfl⟩)
  | cons b rest ih =>
    rw [findIdx]
    by_cases h : (pats.any fun p => p.isPrefixOf (b :: rest)) = true
    · rw [if_pos h]
      simp only [reduceCtorEq, false_iff, not_forall, not_not]
      exact ⟨0, (matchAt_zero pats (b :: rest)).mpr h⟩
    · rw [if_neg h]
      rw [Option.map_eq_none', ih]
      constructor
      · intro hall i
        cases i with
        | zero => rw [matchAt_zero]; exact fun hh => h hh
        | succ i' => rw [matchAt_cons]; exact hall i'
      · intro hall i'
        have := hall (i' + 1)
        rw [matchAt_cons] at this
        exact this

theorem ascii_colon_space : ascii ": " = [58, 32] := rfl

theorem ascii_two_slashes : ascii "//" = [47, 47] := rfl

theorem directiveAfterWord_iff (s : GoStr) :
    directiveAfterWord s = true ↔
      ∃ w v, w.all isWordByte = true ∧ s = w ++ ascii ": " ++ v := by
  induction s with
  | nil =>
    rw [directiveAfterWord]
    simp only [Bool.false_eq_true, false_iff]
    rintro ⟨w, v, _, hs⟩
    have := hs.symm
    rw [ascii_colon_space] at this
    simp only [List.append_assoc, List.append_eq_nil] at this
    exact absurd this.2.1 (by simp)
  | cons b rest ih =>
    rw [directiveAfterWord, Bool.or_eq_true, Bool.and_eq_true, isPrefixOf_eq, ih]
    constructor
    · rintro (⟨t, ht⟩ | ⟨hw, w', v, hall, hs⟩)
      · exact ⟨[], t, rfl, by simpa using ht⟩
      · refine ⟨b :: w', v, ?_, by simp [hs]⟩
        rw [List.all_cons, Bool.and_eq_true]
        exact ⟨hw, hall⟩
    · rintro ⟨w, v, hall, hs⟩
      cases w with
      | nil => exact Or.inl ⟨v, by simpa using hs⟩
      | cons b' w' =>
        rw [List.cons_append] at hs
        have h2 := (List.cons.injEq b rest b' (w' ++ (ascii ": " ++ v))).mp (by simpa using hs)
        rw [List.all_cons, Bool.and_eq_true] at hall
        refine Or.inr ⟨h2.1 ▸ hall.1, w', v, hall.2, by simpa using h2.2⟩

theorem directiveTail_iff (s : GoStr) :
    directiveTail s = true ↔
      ∃ w v, w ≠ [] ∧ w.all isWordByte = true ∧ s = w ++ ascii ": " ++ v := by
  cases s with
  | nil =>
    rw [directiveTail]
    simp only [Bool.false_eq_true, false_iff]
    rintro ⟨w, v, hw, _, hs⟩
    have := hs.symm
    simp only [List.append_assoc, List.append_eq_nil] at this
    exact hw this.1
  | cons b rest =>
    rw [directiveTail, Bool.and_eq_true, directiveAfterWord_iff]
    constructor
    · rintro ⟨hw, w', v, hall, hs⟩
      refine ⟨b :: w', v, by simp, ?_, by simp [hs]⟩
      rw [List.all_cons, Bool.and_eq_true]
      exact ⟨hw, hall⟩
    · rintro ⟨w, v, hw, hall, hs⟩
      cases w with
      | nil => exact absurd rfl hw
      | cons b' w' =>
        rw [List.cons_append] at hs
        have h2 := (List.cons.injEq b rest b' (w' ++ (ascii ": " ++ v))).mp (by simpa using hs)
        rw [List.all_cons, Bool.and_eq_true] at hall
        exact ⟨h2.1 ▸ hall.1, w', v, hall.2, by simpa using h2.2⟩

theorem directiveMatch_iff (s : GoStr) :
    directiveMatch s = true ↔
      ∃ u w v, w ≠ [] ∧ w.all isWordByte = true ∧
        s = u ++ ascii "//" ++ w ++ ascii ": " ++ v := by
  induction s with
  | nil =>
    rw [directiveMatch]
    simp only [Bool.false_eq_true, false_iff]
    rintro ⟨u, w, v, _, _, hs⟩
    have := hs.symm
    rw [ascii_two_slashes] at this
    simp only [List.append_assoc, List.append_eq_nil] at this
    exact absurd this.2.1 (by simp)
  | cons b rest ih =>
    rw [directiveMatch, Bool.or_eq_true, Bool.and_eq_true, isPrefixOf_eq, directiveTail_iff, ih]
    constructor
    · rintro (⟨⟨t, ht⟩, w, v, hw, hall, hd⟩ | ⟨u, w, v, hw, hall, hs⟩)
      · rw [ascii_two_slashes] at ht
        have hds : (b :: rest).drop 2 = t := by rw [ht]; rfl
        rw [hds] at hd
        refine ⟨[], w, v, hw, hall, ?_⟩
        rw [ht, hd, ascii_two_slashes]
        simp
      · exact ⟨b :: u, w, v, hw, hall, by simp [hs]⟩
    · rintro ⟨u, w, v, hw, hall, hs⟩
      cases u with
      | nil =>
        rw [List.nil_append] at hs
        refine Or.inl ⟨⟨w ++ ascii ": " ++ v, by simpa using hs⟩, w, v, hw, hall, ?_⟩
        rw [ascii_two_slashes] at hs
        rw [hs]
        simp
      | cons c u' =>
        rw [List.cons_append] at hs
        have h2 := (List.cons.injEq b rest c (u' ++ (ascii "//" ++ (w ++ (ascii ": " ++ v))))).mp
          (by simpa using hs)
        exact Or.inr ⟨u', w, v, hw, hall, by simpa using h2.2⟩

theorem checkSpacing_eq_replicate (doc : List GoStr) :
    checkSpacing doc = List.replicate (List.countP spacingViolation doc) Finding.spacing := by
  induction doc with
  | nil => rfl
  | cons c rest ih =>
    rw [checkSpacing, ih, List.countP_cons]
    by_cases h1 : (ascii "/*").isPrefixOf c = true
    · rw [if_pos h1]
      have hv : spacingViolation c = false := by
        unfold spacingViolation
        rw [h1]
        rfl
      rw [hv]
      rfl
    · rw [if_neg h1]
      by_cases h2 : directiveMatch c = true
      · rw [if_pos h2]
        have hv : spacingViolation c = false := by
          unfold spacingViolation
          rw [h2, Bool.not_eq_true] at *
          rw [h2]
          simp
        rw [hv]
        rfl
      · rw [if_neg h2]
        by_cases h3 : ((ascii "// ").isPrefixOf c || (ascii "//\t").isPrefixOf c) = true
        · rw [if_pos h3]
          have hv : spacingViolation c = false := by
            unfold spacingViolation
            rw [Bool.or_eq_true] at h3
            rcases h3 with h3 | h3 <;> rw [h3] <;> simp
          rw [hv]
          rfl
        · rw [if_neg h3]
          rw [Bool.or_eq_true] at h3
          push_neg at h3
          have h1f : (ascii "/*").isPrefixOf c = false := by
            cases hh : (ascii "/*").isPrefixOf c
            · rfl
            · exact absurd hh h1
          have h2f : directiveMatch c = false := by
            cases hh : directiveMatch c
            · rfl
            · exact absurd hh h2
          have h4 : (ascii "// ").isPrefixOf c = false := by
            cases hh : (ascii "// ").isPrefixOf c
            · rfl
            · exact absurd hh h3.1
          have h5 : (ascii "//\t").isPrefixOf c = false := by
            cases hh : (ascii "//\t").isPrefixOf c
            · rfl
            · exact absurd hh h3.2
          have hv : spacingViolation c = true := by
            unfold spacingViolation
            rw [h1f, h2f, h4, h5]
            rfl
          rw [hv]
          rfl

theorem predAntipatternFindings_length_le (name line : GoStr) :
    (predAntipatternFindings name line).length ≤ 1 := by
  unfold predAntipatternFindings
  cases findIdx antipatternPhrases line with
  | none => simp
  | some loc =>
    dsimp only
    split <;> simp

theorem predPrefixFindings_length_le (name line : GoStr) :
    (predPrefixFindings name line).length ≤ 1 := by
  unfold predPrefixFindings
  split <;> simp

theorem checkNoMultiline_count_bad (doc : List GoStr) :
    (checkNoMultiline doc).count Finding.badPredicateComment = 0 := by
  induction doc with
  | nil => rfl
  | cons c rest ih =>
    rw [checkNoMultiline]
    split
    · rfl
    · exact ih

theorem checkEndsWithPunct_count_bad (doc : List GoStr) :
    (checkEndsWithPunct doc).count Finding.badPredicateComment = 0 := by
  unfold checkEndsWithPunct
  split
  · split
    · split
      · split
        · rfl
        · rfl
      · rfl
    · rfl
  · rfl

theorem count_bad_replicate (n : Nat) :
    (List.replicate n Finding.spacing).count Finding.badPredicateComment = 0 := by
  induction n with
  | zero => rfl
  | succ n ih =>
    rw [List.replicate_succ, List.count_cons]
    simp [ih]

theorem foldl_incr (n : Nat) (l : List Report) :
    l.foldl (fun a _ => a + 1) n = n + l.length := by
  induction l generalizing n with
  | nil => simp
  | cons a t ih =>
    rw [List.foldl_cons, ih]
    simp only [List.length_cons]
    omega

theorem checkBoolFuncStyle_eq (fn : FuncDecl) (line : GoStr) (rest : List GoStr)
    (hb : isBooleanFunc fn = true) :
    checkBoolFuncStyle fn (line :: rest) =
      predAntipatternFindings fn.name line ++ predPrefixFindings fn.name line := by
  unfold checkBoolFuncStyle
  rw [hb]
  rfl

/-- C2: a declaration is classified as a boolean function exactly when its
result list exists, has exactly one entry, that entry binds exactly one
name, and its type is the literal identifier bool; every other shape
yields false (the classifier never looks at a body, which the embedded
declaration does not even carry). -/
theorem c2_bool_classifier (decl : FuncDecl) :
    isBooleanFunc decl = true ↔
      ∃ res : Field, decl.results = some [res] ∧ res.names.length = 1 ∧
        res.type = TypeExpr.ident (ascii "bool") := by
  obtain ⟨fname, results, fdoc⟩ := decl
  cases results with
  | none => simp [isBooleanFunc]
  | some rs =>
    cases rs with
    | nil => simp [isBooleanFunc]
    | cons res rs' =>
      cases rs' with
      | cons res2 rs'' => simp [isBooleanFunc]
      | nil =>
        obtain ⟨names, type⟩ := res
        cases type with
        | other => simp [isBooleanFunc]
        | ident n => simp [isBooleanFunc]

/-- C8: scanning a documentation comment, the no-multiline check emits
exactly one finding iff some comment of the group is a block comment
(text starting with slash-star), and none otherwise. -/
theorem c8_no_multiline (doc : List GoStr) :
    (checkNoMultiline doc = [Finding.noMultiline] ↔
      ∃ c ∈ doc, (ascii "/*").isPrefixOf c = true) ∧
    (checkNoMultiline doc = [] ↔ ∀ c ∈ doc, (ascii "/*").isPrefixOf c = false) := by
  induction doc with
  | nil =>
    constructor
    · simp [checkNoMultiline]
    · simp [checkNoMultiline]
  | cons c rest ih =>
    by_cases h : (ascii "/*").isPrefixOf c = true
    · constructor
      · rw [checkNoMultiline, if_pos h]
        simp only [true_iff]
        exact ⟨c, List.mem_cons_self c rest, h⟩
      · rw [checkNoMultiline, if_pos h]
        constructor
        · intro hh; exact absurd hh (by simp)
        · intro hall
          have hc := hall c (List.mem_cons_self c rest)
          rw [h] at hc
          exact absurd hc (by simp)
    · have hf : (ascii "/*").isPrefixOf c = false := by
        cases hh : (ascii "/*").isPrefixOf c
        · rfl
        · exact absurd hh h
      constructor
      · rw [checkNoMultiline, if_neg h, ih.1]
        constructor
        · rintro ⟨d, hd, hdp⟩
          exact ⟨d, List.mem_cons_of_mem c hd, hdp⟩
        · rintro ⟨d, hd, hdp⟩
          rcases List.mem_cons.mp hd with rfl | hd'
          · exact absurd hdp h
          · exact ⟨d, hd', hdp⟩
      · rw [checkNoMultiline, if_neg h, ih.2]
        constructor
        · intro hall d hd
          rcases List.mem_cons.mp hd with rfl | hd'
          · exact hf
          · exact hall d hd'
        · intro hall d hd
          exact hall d (List.mem_cons_of_mem c hd)

/-- C9: with zero doc-carrying files the package check reports exactly
one no-doc-comment finding anchored at the path and nothing else; with
more than one it reports exactly one finding carrying the count and
nothing else. -/
theorem c9_package_doc_count (pkg : Package) :
    (docFiles pkg = [] → CheckPackage pkg = [Report.mk Anchor.pkgPath Finding.noDocComment]) ∧
    (∀ a b l, docFiles pkg = a :: b :: l →
      CheckPackage pkg = [Report.mk Anchor.pkgPath (Finding.manyDocComments (l.length + 2))]) := by
  constructor
  · intro h
    unfold CheckPackage
    rw [h]
  · intro a b l h
    unfold CheckPackage
    rw [h]
    rfl

/-- C9 witness: a package with no package doc comment and a package with
two of them, run through CheckPackage. -/
theorem c9_witness :
    CheckPackage pkgNoDoc = [Report.mk Anchor.pkgPath Finding.noDocComment] ∧
    CheckPackage pkgTwoDocs = [Report.mk Anchor.pkgPath (Finding.manyDocComments 2)] :=
  ⟨(c9_package_doc_count pkgNoDoc).1 (by decide),
   (c9_package_doc_count pkgTwoDocs).2 (ascii "a.go", [ascii "// A."])
     (ascii "b.go", [ascii "// B."]) [] (by decide)⟩

/-- C5: for a package with exactly one doc-carrying file and a name other
than main, the long-doc finding, anchored at that file, is emitted iff
the sum over the comments of newline count plus one exceeds 100 and the
file is not doc.go; otherwise CheckPackage emits nothing. -/
theorem c5_long_doc (pkg : Package) (fname : GoStr) (doc : List GoStr)
    (h1 : docFiles pkg = [(fname, doc)]) (h2 : pkg.name ≠ ascii "main") :
    CheckPackage pkg =
      if 100 < docCommentLines doc ∧ fname ≠ ascii "doc.go" then
        [Report.mk (Anchor.file fname) Finding.longDocComment]
      else [] := by
  unfold CheckPackage
  rw [h1]
  simp only [h2, ne_eq, not_false_iff, if_true]

set_option maxRecDepth 20000 in
/-- C5 witness: a 101-line doc comment in a.go of a non-main package
yields the long-doc finding anchored at a.go. -/
theorem c5_witness :
    CheckPackage pkgLong = [Report.mk (Anchor.file (ascii "a.go")) Finding.longDocComment] := by
  have h := c5_long_doc pkgLong (ascii "a.go") [List.replicate 100 10] (by decide) (by decide)
  rw [h]
  decide

/-- C10: the issue counter after a run equals the number of emitted
reports, the exit code is 0 iff no report was emitted, and any report
forces exit code 1. -/
theorem c10_exit_code (pkgs : List Package) :
    issuesOf (lintAll pkgs) = (lintAll pkgs).length ∧
    (ExitCode (issuesOf (lintAll pkgs)) = 0 ↔ lintAll pkgs = []) ∧
    (lintAll pkgs ≠ [] → ExitCode (issuesOf (lintAll pkgs)) = 1) := by
  have hlen : issuesOf (lintAll pkgs) = (lintAll pkgs).length := by
    unfold issuesOf
    rw [foldl_incr]
    omega
  refine ⟨hlen, ?_, ?_⟩
  · rw [hlen]
    unfold ExitCode
    rcases eq_or_ne (lintAll pkgs) [] with h | h
    · simp [h]
    · have hne : (lintAll pkgs).length ≠ 0 := by
        simpa [List.length_eq_zero] using h
      constructor
      · intro hh
        rw [if_neg (by simpa using hne)] at hh
        exact absurd hh (by simp)
      · intro hh
        exact absurd hh h
  · intro h
    rw [hlen]
    unfold ExitCode
    have hne : (lintAll pkgs).length ≠ 0 := by
      simpa [List.length_eq_zero] using h
    rw [if_neg (by simpa using hne)]

/-- C10 witness: one package with a finding makes the exit code 1. -/
theorem c10_witness :
    lintAll [pkgIssue] ≠ [] ∧ ExitCode (issuesOf (lintAll [pkgIssue])) = 1 :=
  ⟨by decide, (c10_exit_code [pkgIssue]).2.2 (by decide)⟩

/-- C4 counterexample: for the predicate IsX documented as a line that
both contains an antipattern phrase in the reporting window and lacks
the canonical phrase, the four checks emit TWO bad-predicate-comment
findings for one comment, so the prefix check does not supersede the
antipattern check. -/
theorem c4_counterexample :
    checkFuncDoc fnIsX [lineIsX] =
      [Finding.badPredicateComment, Finding.badPredicateComment] := by
  decide

/-- C4 amended: the four sub-checks all run and their findings accumulate
in order; the predicate-style sub-check contributes at most TWO (not at
most one) bad-predicate-comment findings, its antipattern half first and
its name-prefix half second, with no superseding between them; the other
three sub-checks never contribute a bad-predicate-comment finding. -/
theorem c4_no_superseding (fn : FuncDecl) (doc : List GoStr) :
    checkFuncDoc fn doc =
      checkBoolFuncStyle fn doc ++ checkNoMultiline doc ++
        checkEndsWithPunct doc ++ checkSpacing doc ∧
    (checkBoolFuncStyle fn doc).length ≤ 2 ∧
    (checkNoMultiline doc ++ checkEndsWithPunct doc ++ checkSpacing doc).count
      Finding.badPredicateComment = 0 := by
  refine ⟨rfl, ?_, ?_⟩
  · unfold checkBoolFuncStyle
    split
    · simp
    · cases doc with
      | nil => simp
      | cons line rest =>
        dsimp only
        rw [List.length_append]
        have h1 := predAntipatternFindings_length_le fn.name line
        have h2 := predPrefixFindings_length_le fn.name line
        omega
  · rw [List.count_append, List.count_append]
    rw [checkNoMultiline_count_bad, checkEndsWithPunct_count_bad]
    rw [checkSpacing_eq_replicate, count_bad_replicate]

/-- C6 counterexample: a single-line comment ending in U+2026 HORIZONTAL
ELLIPSIS, whose last CHARACTER is Unicode punctuation, still gets the
punctuation finding, because the source inspects only the last byte of
the line (166, which as a code point is not punctuation). -/
theorem c6_counterexample :
    (utf8Decode ellipsisLine).getLast? = some 8230 ∧
    isPunctCp 8230 = true ∧
    checkEndsWithPunct [ellipsisLine] = [Finding.endsWithPunct] := by
  refine ⟨by decide, by decide, by decide⟩

/-- C6 amended: the punctuation finding is emitted iff the comment group
is a single line comment whose LAST BYTE, read as a code point, is not
punctuation; multi-line groups and block comments are exempt.  For pure
ASCII lines the last byte is the last character, so the spec reading and
the code agree there. -/
theorem checkEndsWithPunct_single (line : GoStr) :
    checkEndsWithPunct [line] =
      if (ascii "//").isPrefixOf line then
        match line.getLast? with
        | some b => if isPunctByte b then [] else [Finding.endsWithPunct]
        | none => []
      else [] := rfl

theorem c6_ends_with_punct (doc : List GoStr) :
    Finding.endsWithPunct ∈ checkEndsWithPunct doc ↔
      ∃ line b, doc = [line] ∧ (ascii "//").isPrefixOf line = true ∧
        line.getLast? = some b ∧ isPunctByte b = false := by
  rcases doc with _ | ⟨line, _ | ⟨l2, rest⟩⟩
  · constructor
    · intro h; exact absurd h (by simp [checkEndsWithPunct])
    · rintro ⟨line, b, h, -, -, -⟩; exact absurd h (by simp)
  · by_cases hp : (ascii "//").isPrefixOf line = true
    · cases hl : line.getLast? with
      | none =>
        have heval : checkEndsWithPunct [line] = [] := by
          rw [checkEndsWithPunct_single, if_pos hp, hl]
        rw [heval]
        constructor
        · intro h; exact absurd h (by simp)
        · rintro ⟨line', b, hd, -, hlast, -⟩
          have hle : line = line' := by simpa using hd
          rw [← hle, hl] at hlast
          exact absurd hlast (by simp)
      | some b =>
        by_cases hb : isPunctByte b = true
        · have heval : checkEndsWithPunct [line] = [] := by
            rw [checkEndsWithPunct_single, if_pos hp, hl]
            dsimp only
            rw [if_pos hb]
          rw [heval]
          constructor
          · intro h; exact absurd h (by simp)
          · rintro ⟨line', b', hd, -, hlast, hbf⟩
            have hle : line = line' := by simpa using hd
            rw [← hle, hl] at hlast
            have hbb : b = b' := Option.some_inj.mp hlast
            rw [← hbb, hb] at hbf
            exact absurd hbf (by simp)
        · have hbf : isPunctByte b = false := by
            cases hh : isPunctByte b
            · rfl
            · exact absurd hh hb
          have heval : checkEndsWithPunct [line] = [Finding.endsWithPunct] := by
            rw [checkEndsWithPunct_single, if_pos hp, hl]
            dsimp only
            rw [if_neg hb]
          rw [heval]
          constructor
          · intro _
            exact ⟨line, b, rfl, hp, hl, hbf⟩
          · intro _
            exact List.mem_singleton.mpr rfl
    · have heval : checkEndsWithPunct [line] = [] := by
        rw [checkEndsWithPunct_single, if_neg hp]
      rw [heval]
      constructor
      · intro h
        exact absurd h (by simp)
      · rintro ⟨line', b, hd, hpre, -, -⟩
        have hle : line = line' := by simpa using hd
        rw [← hle] at hpre
        exact absurd hpre hp
  · constructor
    · intro h
      exact absurd h (by simp [checkEndsWithPunct])
    · rintro ⟨line', b, hd, -, -, -⟩
      exact absurd hd (by simp)

/-- C7 counterexample: the line-comment text two slashes, x, two slashes,
y, colon, space, z is NOT of the directive shape from its start and does
not begin with slash-slash-space or slash-slash-tab, yet the spacing
check emits nothing for it, because MatchString finds the directive
pattern in the middle of the line. -/
theorem c7_counterexample :
    directiveShaped c7line = false ∧
    (ascii "// ").isPrefixOf c7line = false ∧
    (ascii "//\t").isPrefixOf c7line = false ∧
    (ascii "/*").isPrefixOf c7line = false ∧
    checkSpacing [c7line] = [] := by
  refine ⟨by decide, by decide, by decide, by decide, by decide⟩

/-- C7 amended: the spacing check emits one finding per comment of the
group that is not a block comment, does not CONTAIN ANYWHERE a substring
of directive shape (the regexp is matched unanchored, not only at the
start of the line), and does not begin with slash-slash-space or
slash-slash-tab; a multi-line group yields one finding per offending
line. -/
theorem c7_spacing (doc : List GoStr) (c : GoStr) :
    checkSpacing doc = List.replicate (List.countP spacingViolation doc) Finding.spacing ∧
    (directiveMatch c = true ↔
      ∃ u w v, w ≠ [] ∧ w.all isWordByte = true ∧
        c = u ++ ascii "//" ++ w ++ ascii ": " ++ v) :=
  ⟨checkSpacing_eq_replicate doc, directiveMatch_iff c⟩

/-- C1 counterexample: the boolean function FooIsBar, whose name does NOT
begin with a predicate prefix, still receives a bad-predicate-comment
finding, because the name regexp is matched unanchored and finds IsBar
inside the name. -/
theorem c1_counterexample :
    predNameBeginsWith (ascii "FooIsBar") = false ∧
    isBooleanFunc fnFooIsBar = true ∧
    checkBoolFuncStyle fnFooIsBar [ascii "// does things."] =
      [Finding.badPredicateComment] := by
  refine ⟨by decide, by decide, by decide⟩

/-- C1 amended: for a documented boolean function, the name-prefix half
of the predicate-style check fires iff the name CONTAINS ANYWHERE a
predicate prefix followed by an uppercase letter or digit (the regexp is
matched unanchored, not only at the beginning of the name) and the first
comment line lacks the substring of the name followed by the canonical
reporting phrase; names with no such match anywhere produce no finding
from this half. -/
theorem c1_predicate_name (fn : FuncDecl) (line : GoStr) (rest : List GoStr)
    (hb : isBooleanFunc fn = true) :
    checkBoolFuncStyle fn (line :: rest) =
      predAntipatternFindings fn.name line ++ predPrefixFindings fn.name line ∧
    (predPrefixFindings fn.name line = [Finding.badPredicateComment] ↔
      ((∃ u p b v, p ∈ predPrefixes ∧ isUpperDigitByte b = true ∧
          fn.name = u ++ p ++ b :: v) ∧
        ¬ ∃ u v, line = u ++ (fn.name ++ ascii " reports whether ") ++ v)) ∧
    ((¬ ∃ u p b v, p ∈ predPrefixes ∧ isUpperDigitByte b = true ∧
        fn.name = u ++ p ++ b :: v) →
      predPrefixFindings fn.name line = []) := by
  refine ⟨checkBoolFuncStyle_eq fn line rest hb, ?_, ?_⟩
  · unfold predPrefixFindings
    by_cases h : (predPrefixMatch fn.name &&
        !(goContains (fn.name ++ ascii " reports whether ") line)) = true
    · rw [if_pos h]
      rw [Bool.and_eq_true, Bool.not_eq_true'] at h
      constructor
      · intro _
        refine ⟨(predPrefixMatch_iff fn.name).mp h.1, ?_⟩
        intro hc
        have := (goContains_iff (fn.name ++ ascii " reports whether ") line).mpr hc
        rw [h.2] at this
        exact absurd this (by simp)
      · intro _
        rfl
    · rw [if_neg h]
      constructor
      · intro hh
        exact absurd hh (by simp)
      · rintro ⟨h1, h2⟩
        apply absurd _ h
        rw [Bool.and_eq_true, Bool.not_eq_true']
        refine ⟨(predPrefixMatch_iff fn.name).mpr h1, ?_⟩
        cases hgc : goContains (fn.name ++ ascii " reports whether ") line
        · rfl
        · exact absurd ((goContains_iff (fn.name ++ ascii " reports whether ") line).mp hgc) h2
  · intro hno
    unfold predPrefixFindings
    have hpm : predPrefixMatch fn.name = false := by
      cases hh : predPrefixMatch fn.name
      · rfl
      · exact absurd ((predPrefixMatch_iff fn.name).mp hh) hno
    rw [hpm]
    rfl

/-- C1 witness: the well-documented predicate IsGood runs through the
whole predicate-style check and gets no finding from it. -/
theorem c1_witness :
    isBooleanFunc fnIsGood = true ∧
    checkBoolFuncStyle fnIsGood [lineIsGood] = [] := by
  refine ⟨by decide, ?_⟩
  have h := (c1_predicate_name fnIsGood lineIsGood [] (by decide)).1
  rw [h]
  decide

/-- C3: for a documented boolean function, the antipattern half of the
predicate-style check fires iff the first comment line contains one of
the twelve space-surrounded phrases, and the LEFTMOST byte position of
such a phrase, minus the byte length of the function name, lies strictly
above 1 and at most 4; the whole check is the antipattern half followed
by the name-prefix half. -/
theorem c3_antipattern_window (fn : FuncDecl) (line : GoStr) (rest : List GoStr)
    (hb : isBooleanFunc fn = true) :
    (predAntipatternFindings fn.name line = [Finding.badPredicateComment] ↔
      ∃ i, matchAt antipatternPhrases line i ∧
        (∀ j, j < i → ¬ matchAt antipatternPhrases line j) ∧
        1 < (i : Int) - (fn.name.length : Int) ∧
        (i : Int) - (fn.name.length : Int) ≤ 4) ∧
    checkBoolFuncStyle fn (line :: rest) =
      predAntipatternFindings fn.name line ++ predPrefixFindings fn.name line := by
  refine ⟨?_, checkBoolFuncStyle_eq fn line rest hb⟩
  unfold predAntipatternFindings
  cases hf : findIdx antipatternPhrases line with
  | none =>
    constructor
    · intro h
      exact absurd h (by simp)
    · rintro ⟨i, hm, hmin, -, -⟩
      have := (findIdx_eq_some antipatternPhrases line i).mpr ⟨hm, fun j hj => hmin j hj⟩
      rw [hf] at this
      exact absurd this (by simp)
  | some loc =>
    dsimp only
    by_cases hw : 1 < (loc : Int) - (fn.name.length : Int) ∧
        (loc : Int) - (fn.name.length : Int) ≤ 4
    · rw [if_pos hw]
      constructor
      · intro _
        obtain ⟨hm, hmin⟩ := (findIdx_eq_some antipatternPhrases line loc).mp hf
        exact ⟨loc, hm, hmin, hw.1, hw.2⟩
      · intro _
        rfl
    · rw [if_neg hw]
      constructor
      · intro h
        exact absurd h (by simp)
      · rintro ⟨i, hm, hmin, hw1, hw2⟩
        have hsome : findIdx antipatternPhrases line = some i :=
          (findIdx_eq_some antipatternPhrases line i).mpr ⟨hm, fun j hj => hmin j hj⟩
        rw [hf] at hsome
        have hloc : loc = i := Option.some_inj.mp hsome
        subst hloc
        exact absurd ⟨hw1, hw2⟩ hw

/-- C3 witness: HasFoo documented with a phrase starting three bytes
after the end of the name has a leftmost antipattern match in the
reporting window. -/
theorem c3_witness :
    ∃ i, matchAt antipatternPhrases lineHasFoo i ∧
      (∀ j, j < i → ¬ matchAt antipatternPhrases lineHasFoo j) ∧
      1 < (i : Int) - (fnHasFoo.name.length : Int) ∧
      (i : Int) - (fnHasFoo.name.length : Int) ≤ 4 :=
  (c3_antipattern_window fnHasFoo lineHasFoo [] (by decide)).1.mp (by decide)

end Doccheck
